import Mathlib

/-!
Shallow embedding of the Yahtzee scoring rule engine (src/Rules.js).

Dice values are naturals; a thrown JS exception is modelled as `none`,
a normal numeric return as `some n`.  The JS `Map` used by `Rule.freq`
is modelled as an insertion-ordered association list, so the list of
counts it produces has the same order as `Array.from(map.values())`.
-/

namespace Rule

/-- `Rule.sum`: `dice.reduce((prev, curr) => prev + curr)`.
`reduce` without an initial value throws a TypeError on an empty array,
modelled as `none`; otherwise it left-folds starting from the head. -/
def sum (dice : List Nat) : Option Nat :=
  match dice with
  | [] => none
  | d :: rest => some (rest.foldl (fun prev curr => prev + curr) d)

/-- One step of `freqs.set(d, (freqs.get(d) || 0) + 1)` on a JS `Map`
represented as an insertion-ordered association list: an existing key is
updated in place, a new key is appended at the end. -/
def updateFreqs : List (Nat × Nat) → Nat → List (Nat × Nat)
  | [], d => [(d, 1)]
  | (k, v) :: rest, d =>
      if k = d then (k, v + 1) :: rest else (k, v) :: updateFreqs rest d

/-- The `Map` built by `Rule.freq` after consuming all the dice. -/
def freqMap (dice : List Nat) : List (Nat × Nat) :=
  dice.foldl updateFreqs []

/-- `Rule.freq`: `Array.from(freqs.values())`, the counts of the distinct
dice values in first-occurrence order. -/
def freq (dice : List Nat) : List Nat :=
  (freqMap dice).map Prod.snd

/-- `Rule.count`: `dice.filter(d => d === val).length`. -/
def count (dice : List Nat) (val : Nat) : Nat :=
  (dice.filter fun d => d == val).length

end Rule

/-- `TotalOneNumber.evalRoll`: `this.val * this.count(dice, this.val)`. -/
def TotalOneNumber.evalRoll (val : Nat) (dice : List Nat) : Option Nat :=
  some (val * Rule.count dice val)

/-- `SumDistro.evalRoll`:
`this.freq(dice).some(c => c >= this.count) ? this.sum(dice) : 0`. -/
def SumDistro.evalRoll (cnt : Nat) (dice : List Nat) : Option Nat :=
  if (Rule.freq dice).any fun c => decide (cnt ≤ c) then Rule.sum dice else some 0

/-- `FullHouse.evalRoll`:
`(this.freq(dice).some(c => c === 3) && this.freq(dice).some(c => c === 2)) ? this.score : 0`. -/
def FullHouse.evalRoll (score : Nat) (dice : List Nat) : Option Nat :=
  some (if ((Rule.freq dice).any fun c => c == 3) && ((Rule.freq dice).any fun c => c == 2)
        then score else 0)

/-- `SmallStraight.evalRoll`: with `d = new Set(dice)`,
`(d.size === 4 && (!d.has(1) && !d.has(2) || !d.has(1) && !d.has(6) || !d.has(5) && !d.has(6)))
 || (d.size === 5 && (!d.has(1) || !d.has(6))) ? this.score : 0`.
`d.size` is the number of distinct dice (`dice.dedup.length`) and
`d.has(x)` is `x ∈ dice`. -/
def SmallStraight.evalRoll (score : Nat) (dice : List Nat) : Option Nat :=
  some (if (dice.dedup.length = 4 ∧
              ((1 ∉ dice ∧ 2 ∉ dice) ∨ (1 ∉ dice ∧ 6 ∉ dice) ∨ (5 ∉ dice ∧ 6 ∉ dice)))
           ∨ (dice.dedup.length = 5 ∧ (1 ∉ dice ∨ 6 ∉ dice))
        then score else 0)

/-- `LargeStraight.evalRoll`: with `d = new Set(dice)`,
`d.size === 5 && (!d.has(1) || !d.has(6)) ? this.score : 0`. -/
def LargeStraight.evalRoll (score : Nat) (dice : List Nat) : Option Nat :=
  some (if dice.dedup.length = 5 ∧ (1 ∉ dice ∨ 6 ∉ dice) then score else 0)

/-- `Yahtzee.evalRoll`: `this.freq(dice)[0] === 5 ? this.score : 0`.
On an empty array `freq(dice)[0]` is `undefined`, which is not `=== 5`;
`headD 0` gives the same decision since the profile never holds a 0. -/
def Yahtzee.evalRoll (score : Nat) (dice : List Nat) : Option Nat :=
  some (if (Rule.freq dice).headD 0 = 5 then score else 0)

/-- `const ones = new TotalOneNumber({ val: 1, ... })`. -/
def ones (dice : List Nat) : Option Nat := TotalOneNumber.evalRoll 1 dice

/-- `const twos = new TotalOneNumber({ val: 2, ... })`. -/
def twos (dice : List Nat) : Option Nat := TotalOneNumber.evalRoll 2 dice

/-- `const threes = new TotalOneNumber({ val: 3, ... })`. -/
def threes (dice : List Nat) : Option Nat := TotalOneNumber.evalRoll 3 dice

/-- `const fours = new TotalOneNumber({ val: 4, ... })`. -/
def fours (dice : List Nat) : Option Nat := TotalOneNumber.evalRoll 4 dice

/-- `const fives = new TotalOneNumber({ val: 5, ... })`. -/
def fives (dice : List Nat) : Option Nat := TotalOneNumber.evalRoll 5 dice

/-- `const sixes = new TotalOneNumber({ val: 6, ... })`. -/
def sixes (dice : List Nat) : Option Nat := TotalOneNumber.evalRoll 6 dice

/-- `const threeOfKind = new SumDistro({ count: 3, ... })`. -/
def threeOfKind (dice : List Nat) : Option Nat := SumDistro.evalRoll 3 dice

/-- `const fourOfKind = new SumDistro({ count: 4, ... })`. -/
def fourOfKind (dice : List Nat) : Option Nat := SumDistro.evalRoll 4 dice

/-- `const fullHouse = new FullHouse({ score: 25, ... })`. -/
def fullHouse (dice : List Nat) : Option Nat := FullHouse.evalRoll 25 dice

/-- `const smallStraight = new SmallStraight({ score: 30, ... })`. -/
def smallStraight (dice : List Nat) : Option Nat := SmallStraight.evalRoll 30 dice

/-- `const largeStraight = new LargeStraight({ score: 40, ... })`. -/
def largeStraight (dice : List Nat) : Option Nat := LargeStraight.evalRoll 40 dice

/-- `const yahtzee = new Yahtzee({ score: 50, ... })`. -/
def yahtzee (dice : List Nat) : Option Nat := Yahtzee.evalRoll 50 dice

/-- `const chance = new SumDistro({ count: 0, ... })`. -/
def chance (dice : List Nat) : Option Nat := SumDistro.evalRoll 0 dice

/-- A well-formed hand: exactly 5 dice, each with a face value in [1,6]. -/
abbrev ValidHand (dice : List Nat) : Prop :=
  dice.length = 5 ∧ ∀ d ∈ dice, 1 ≤ d ∧ d ≤ 6

/-- Reference check, following the spec: the distinct faces contain a run of
at least 4 consecutive values, i.e. some window of four consecutive face
values is entirely present in the hand. -/
def specHasRun4 (dice : List Nat) : Bool :=
  [1, 2, 3].any fun s =>
    decide (s ∈ dice) && decide (s + 1 ∈ dice) && decide (s + 2 ∈ dice)
      && decide (s + 3 ∈ dice)

/-- The claimed characterisation of `SmallStraight.evalRoll`, phrased on the
set of distinct faces: size 4 missing a whole pair among {1,2}, {1,6}, {5,6},
or size 5 missing 1 or missing 6. -/
abbrev smallStraightCond (dice : List Nat) : Prop :=
  (dice.toFinset.card = 4 ∧
      ((1 ∉ dice.toFinset ∧ 2 ∉ dice.toFinset) ∨
        (1 ∉ dice.toFinset ∧ 6 ∉ dice.toFinset) ∨
        (5 ∉ dice.toFinset ∧ 6 ∉ dice.toFinset))) ∨
    (dice.toFinset.card = 5 ∧ (1 ∉ dice.toFinset ∨ 6 ∉ dice.toFinset))

/-- The maximum of the frequency profile (0 for an empty profile). -/
def maxFreq (dice : List Nat) : Nat :=
  (Rule.freq dice).foldr max 0

/-- The distinct dice values in first-occurrence order: the key list of the
JS `Map` built by `Rule.freq`. -/
def firstKeys (dice : List Nat) : List Nat :=
  dice.foldl (fun acc d => if d ∈ acc then acc else acc ++ [d]) []

/-! ## Helper lemmas: sums and counts -/

lemma foldl_add_eq (t : List Nat) :
    ∀ a : Nat, t.foldl (fun prev curr => prev + curr) a = a + t.sum := by
  induction t with
  | nil => intro a; simp
  | cons x xs ih => intro a; simp only [List.foldl_cons, ih, List.sum_cons]; omega

lemma sum_eq_some {dice : List Nat} (hd : dice ≠ []) :
    Rule.sum dice = some dice.sum := by
  match dice with
  | [] => exact absurd rfl hd
  | x :: t => simp only [Rule.sum, foldl_add_eq, List.sum_cons]

lemma count_eq_listCount (dice : List Nat) (v : Nat) :
    Rule.count dice v = dice.count v := by
  rw [Rule.count, ← List.countP_eq_length_filter]
  rfl

lemma count_le_length (dice : List Nat) (v : Nat) :
    Rule.count dice v ≤ dice.length :=
  List.length_filter_le _ _

lemma count_perm {l1 l2 : List Nat} (hp : l1.Perm l2) (v : Nat) :
    Rule.count l1 v = Rule.count l2 v :=
  (hp.filter fun d => d == v).length_eq

lemma sum_le_mul (l : List Nat) (n : Nat) (hb : ∀ x ∈ l, x ≤ n) :
    l.sum ≤ l.length * n := by
  induction l with
  | nil => simp
  | cons x t ih =>
      simp only [List.sum_cons, List.length_cons]
      have h1 : x ≤ n := hb x (by simp)
      have h2 : t.sum ≤ t.length * n := ih fun y hy => hb y (by simp [hy])
      calc x + t.sum ≤ n + t.length * n := Nat.add_le_add h1 h2
        _ = (t.length + 1) * n := by ring

lemma valid_ne_nil {dice : List Nat} (hv : ValidHand dice) : dice ≠ [] := by
  intro h
  have h5 := hv.1
  rw [h] at h5
  simp at h5

/-! ## Helper lemmas: the key list of the frequency map -/

lemma firstKeys_append_singleton (l : List Nat) (d : Nat) :
    firstKeys (l ++ [d]) =
      if d ∈ firstKeys l then firstKeys l else firstKeys l ++ [d] := by
  simp [firstKeys, List.foldl_append]

lemma mem_firstKeys {k : Nat} : ∀ {l : List Nat}, k ∈ firstKeys l ↔ k ∈ l := by
  intro l
  induction l using List.reverseRecOn with
  | nil => simp [firstKeys]
  | append_singleton l d ih =>
      rw [firstKeys_append_singleton]
      split
      · next hmem =>
          rw [ih]
          simp only [List.mem_append, List.mem_singleton]
          constructor
          · exact Or.inl
          · rintro (h | rfl)
            · exact h
            · exact ih.mp hmem
      · simp [ih]

lemma nodup_firstKeys : ∀ (l : List Nat), (firstKeys l).Nodup := by
  intro l
  induction l using List.reverseRecOn with
  | nil => simp [firstKeys]
  | append_singleton l d ih =>
      rw [firstKeys_append_singleton]
      split
      · exact ih
      · next hmem =>
          simp only [List.nodup_append, List.nodup_cons, List.not_mem_nil,
            not_false_eq_true, List.nodup_nil, and_true, List.disjoint_singleton]
          exact ⟨ih, trivial, hmem⟩

/-! ## Helper lemmas: characterising the frequency map -/

lemma count_append_singleton (l : List Nat) (d k : Nat) :
    Rule.count (l ++ [d]) k = Rule.count l k + (if k = d then 1 else 0) := by
  rw [count_eq_listCount, count_eq_listCount, List.count_append]
  congr 1
  by_cases h : k = d
  · subst h; simp
  · rw [if_neg h, List.count_singleton', if_neg (Ne.symm h)]

lemma updateFreqs_map_counts (l : List Nat) (d : Nat) :
    ∀ ks : List Nat, ks.Nodup → (Rule.count l d = 0 ∨ d ∈ ks) →
      Rule.updateFreqs (ks.map fun k => (k, Rule.count l k)) d =
        (if d ∈ ks then ks else ks ++ [d]).map
          fun k => (k, Rule.count (l ++ [d]) k) := by
  intro ks
  induction ks with
  | nil =>
      intro _ hcov
      have h0 : Rule.count l d = 0 := by
        rcases hcov with h | h
        · exact h
        · simp at h
      simp [Rule.updateFreqs, count_append_singleton, h0]
  | cons k1 rest ih =>
      intro hnd hcov
      have hnd1 : k1 ∉ rest := (List.nodup_cons.mp hnd).1
      have hndr : rest.Nodup := (List.nodup_cons.mp hnd).2
      by_cases hk : k1 = d
      · subst hk
        simp only [List.map_cons, Rule.updateFreqs, if_pos rfl, List.mem_cons,
          true_or, if_true, List.map_cons]
        have hhead : (k1, Rule.count l k1 + 1) = (k1, Rule.count (l ++ [k1]) k1) := by
          rw [count_append_singleton, if_pos rfl]
        have htail : (rest.map fun k => (k, Rule.count l k)) =
            rest.map fun k => (k, Rule.count (l ++ [k1]) k) := by
          apply List.map_congr_left
          intro k hkr
          have hne : k ≠ k1 := fun he => hnd1 (he ▸ hkr)
          rw [count_append_singleton, if_neg hne, Nat.add_zero]
        rw [hhead, htail]
      · have hcov2 : Rule.count l d = 0 ∨ d ∈ rest := by
          rcases hcov with h | h
          · exact Or.inl h
          · rcases List.mem_cons.mp h with h | h
            · exact absurd h.symm hk
            · exact Or.inr h
        have hhead : (k1, Rule.count l k1) = (k1, Rule.count (l ++ [d]) k1) := by
          rw [count_append_singleton, if_neg hk, Nat.add_zero]
        simp only [List.map_cons, Rule.updateFreqs, if_neg hk]
        rw [ih hndr hcov2]
        by_cases hdr : d ∈ rest
        · have hd1 : d ∈ k1 :: rest := List.mem_cons_of_mem _ hdr
          rw [if_pos hdr, if_pos hd1, List.map_cons, hhead]
        · have hd1 : d ∉ k1 :: rest := by
            simp only [List.mem_cons]
            rintro (h | h)
            · exact hk h.symm
            · exact hdr h
          rw [if_neg hdr, if_neg hd1, List.cons_append, List.map_cons, hhead]

lemma freqMap_append_singleton (l : List Nat) (d : Nat) :
    Rule.freqMap (l ++ [d]) = Rule.updateFreqs (Rule.freqMap l) d := by
  simp [Rule.freqMap, List.foldl_append]

lemma freqMap_eq_firstKeys_counts :
    ∀ l : List Nat, Rule.freqMap l = (firstKeys l).map fun k => (k, Rule.count l k) := by
  intro l
  induction l using List.reverseRecOn with
  | nil => simp [Rule.freqMap, firstKeys]
  | append_singleton l d ih =>
      rw [freqMap_append_singleton, ih, firstKeys_append_singleton]
      rw [updateFreqs_map_counts l d (firstKeys l) (nodup_firstKeys l)]
      rcases Decidable.em (d ∈ firstKeys l) with h | h
      · exact Or.inr h
      · refine Or.inl ?_
        rw [count_eq_listCount, List.count_eq_zero]
        exact fun hm => h (mem_firstKeys.mpr hm)

lemma freq_eq_firstKeys_counts (l : List Nat) :
    Rule.freq l = (firstKeys l).map fun k => Rule.count l k := by
  rw [Rule.freq, freqMap_eq_firstKeys_counts, List.map_map]
  rfl

lemma freq_any_iff (p : Nat → Bool) (l : List Nat) :
    ((Rule.freq l).any p = true) ↔ ∃ v ∈ l, p (Rule.count l v) = true := by
  rw [freq_eq_firstKeys_counts]
  simp only [List.any_eq_true, List.mem_map]
  constructor
  · rintro ⟨c, ⟨k, hk, rfl⟩, hp⟩
    exact ⟨k, mem_firstKeys.mp hk, hp⟩
  · rintro ⟨v, hv, hp⟩
    exact ⟨Rule.count l v, ⟨v, mem_firstKeys.mpr hv, rfl⟩, hp⟩

lemma freq_mem_iff (n : Nat) (l : List Nat) :
    n ∈ Rule.freq l ↔ ∃ v ∈ l, Rule.count l v = n := by
  rw [freq_eq_firstKeys_counts]
  simp only [List.mem_map]
  constructor
  · rintro ⟨k, hk, rfl⟩
    exact ⟨k, mem_firstKeys.mp hk, rfl⟩
  · rintro ⟨v, hv, rfl⟩
    exact ⟨v, mem_firstKeys.mpr hv, rfl⟩

lemma foldl_insertKey_head (step : List Nat → Nat → List Nat)
    (hstep : ∀ acc d, step acc d = if d ∈ acc then acc else acc ++ [d]) :
    ∀ (t : List Nat) (acc : List Nat), acc ≠ [] →
      (t.foldl step acc).head? = acc.head? := by
  intro t
  induction t with
  | nil => intro acc _; rfl
  | cons d s ih =>
      intro acc hacc
      rw [List.foldl_cons]
      have hme : (step acc d).head? = acc.head? := by
        rw [hstep]
        split
        · rfl
        · match acc, hacc with
          | a :: as, _ => simp
      have hne : step acc d ≠ [] := by
        rw [hstep]
        split
        · exact hacc
        · simp
      rw [ih _ hne, hme]

lemma firstKeys_cons_head (x : Nat) (t : List Nat) :
    (firstKeys (x :: t)).head? = some x := by
  have h1 : firstKeys (x :: t) =
      t.foldl (fun acc d => if d ∈ acc then acc else acc ++ [d]) [x] := by
    simp [firstKeys]
  rw [h1, foldl_insertKey_head _ (fun _ _ => rfl) t [x] (by simp)]
  rfl

lemma freq_cons_headD (x : Nat) (t : List Nat) :
    (Rule.freq (x :: t)).headD 0 = Rule.count (x :: t) x := by
  rw [freq_eq_firstKeys_counts]
  have hh := firstKeys_cons_head x t
  match hfk : firstKeys (x :: t) with
  | [] => rw [hfk] at hh; simp at hh
  | k :: ks =>
      rw [hfk] at hh
      simp only [List.head?_cons, Option.some_inj] at hh
      subst hh
      simp

lemma firstKeys_all_eq {x : Nat} :
    ∀ {t : List Nat}, (∀ d ∈ t, d = x) → firstKeys (x :: t) = [x] := by
  have key : ∀ (t : List Nat), (∀ d ∈ t, d = x) →
      t.foldl (fun acc d => if d ∈ acc then acc else acc ++ [d]) [x] = [x] := by
    intro t
    induction t with
    | nil => intro _; rfl
    | cons d s ih =>
        intro hall
        have hd : d = x := hall d (by simp)
        subst hd
        simp only [List.foldl_cons, List.mem_singleton, if_pos rfl]
        exact ih fun y hy => hall y (by simp [hy])
  intro t hall
  have h1 : firstKeys (x :: t) =
      t.foldl (fun acc d => if d ∈ acc then acc else acc ++ [d]) [x] := by
    simp [firstKeys]
  rw [h1, key t hall]

lemma freq_all_eq {x : Nat} {t : List Nat} (hall : ∀ d ∈ t, d = x) :
    Rule.freq (x :: t) = [Rule.count (x :: t) x] := by
  rw [freq_eq_firstKeys_counts, firstKeys_all_eq hall]
  rfl

lemma count_eq_length_iff (l : List Nat) (x : Nat) :
    Rule.count l x = l.length ↔ ∀ d ∈ l, d = x := by
  rw [count_eq_listCount, List.count_eq_length]
  constructor
  · intro h d hd; exact (h d hd).symm
  · intro h d hd; exact (h d hd).symm

/-! ## Helper lemmas: rule characterisations -/

lemma flat_cases {p : Prop} [Decidable p] (s : Nat) :
    some (if p then s else 0) = some 0 ∨ some (if p then s else 0) = some s := by
  split
  · exact Or.inr rfl
  · exact Or.inl rfl

lemma allEq_iff_headD {l : List Nat} (hne : l ≠ []) :
    (∃ v, ∀ d ∈ l, d = v) ↔ ∀ d ∈ l, d = l.headD 1 := by
  match l, hne with
  | x :: t, _ =>
      simp only [List.headD_cons]
      constructor
      · rintro ⟨v, hv⟩
        have hx : x = v := hv x (by simp)
        intro d hd
        rw [hv d hd, hx]
      · intro h
        exact ⟨x, h⟩

lemma yahtzee_char {dice : List Nat} (h : ValidHand dice) :
    (Yahtzee.evalRoll 50 dice = some 50 ↔ ∀ d ∈ dice, d = dice.headD 1) ∧
    ((¬ ∀ d ∈ dice, d = dice.headD 1) → Yahtzee.evalRoll 50 dice = some 0) ∧
    ((∀ d ∈ dice, d = dice.headD 1) → Rule.freq dice = [5]) := by
  match dice, valid_ne_nil h with
  | x :: t, _ =>
      have hlen : (x :: t).length = 5 := h.1
      have hiff : ((Rule.freq (x :: t)).headD 0 = 5) ↔ ∀ d ∈ x :: t, d = x := by
        rw [freq_cons_headD, ← hlen, count_eq_length_iff]
      simp only [List.headD_cons]
      refine ⟨?_, ?_, ?_⟩
      · unfold Yahtzee.evalRoll
        constructor
        · intro he
          by_contra hne
          rw [if_neg (fun hc => hne (hiff.mp hc))] at he
          simp at he
        · intro hall
          rw [if_pos (hiff.mpr hall)]
      · intro hne
        unfold Yahtzee.evalRoll
        rw [if_neg (fun hc => hne (hiff.mp hc))]
      · intro hall
        have ht : ∀ d ∈ t, d = x := fun d hd => hall d (by simp [hd])
        rw [freq_all_eq ht, ← hlen, (count_eq_length_iff (x :: t) x).mpr hall]

lemma any_freq_perm (p : Nat → Bool) {l1 l2 : List Nat} (hp : l1.Perm l2) :
    (Rule.freq l1).any p = (Rule.freq l2).any p := by
  have hiff : ((Rule.freq l1).any p = true) ↔ ((Rule.freq l2).any p = true) := by
    rw [freq_any_iff, freq_any_iff]
    constructor
    · rintro ⟨v, hv, hc⟩
      exact ⟨v, hp.mem_iff.mp hv, by rw [← count_perm hp]; exact hc⟩
    · rintro ⟨v, hv, hc⟩
      exact ⟨v, hp.mem_iff.mpr hv, by rw [count_perm hp]; exact hc⟩
  cases h1 : (Rule.freq l1).any p <;> cases h2 : (Rule.freq l2).any p <;>
    simp_all

lemma freq_nil_any (p : Nat → Bool) : (Rule.freq []).any p = false := rfl

lemma sumDistro_perm (c : Nat) {l1 l2 : List Nat} (hp : l1.Perm l2) :
    SumDistro.evalRoll c l1 = SumDistro.evalRoll c l2 := by
  unfold SumDistro.evalRoll
  rw [any_freq_perm _ hp]
  by_cases hb : (Rule.freq l2).any (fun k => decide (c ≤ k)) = true
  · rw [if_pos hb, if_pos hb]
    have h2 : l2 ≠ [] := by
      intro he
      subst he
      rw [freq_nil_any] at hb
      exact Bool.false_ne_true hb
    have h1 : l1 ≠ [] := fun he => h2 ((he ▸ hp).symm.eq_nil)
    rw [sum_eq_some h1, sum_eq_some h2, hp.sum_eq]
  · rw [if_neg hb, if_neg hb]

lemma fullHouse_perm (s : Nat) {l1 l2 : List Nat} (hp : l1.Perm l2) :
    FullHouse.evalRoll s l1 = FullHouse.evalRoll s l2 := by
  unfold FullHouse.evalRoll
  rw [any_freq_perm (fun c => c == 3) hp, any_freq_perm (fun c => c == 2) hp]

lemma freq_ne_nil {dice : List Nat} (hd : dice ≠ []) : Rule.freq dice ≠ [] := by
  match dice, hd with
  | x :: t, _ =>
      rw [freq_eq_firstKeys_counts]
      intro he
      rw [List.map_eq_nil_iff] at he
      have hh := firstKeys_cons_head x t
      rw [he] at hh
      simp at hh

lemma any_le_iff_le_foldr_max (c : Nat) :
    ∀ l : List Nat, l ≠ [] →
      ((l.any fun x => decide (c ≤ x)) = true ↔ c ≤ l.foldr max 0) := by
  intro l
  induction l with
  | nil => intro h; exact absurd rfl h
  | cons x t ih =>
      intro _
      match t with
      | [] => simp [Nat.max_zero]
      | y :: s =>
          simp only [List.any_cons, Bool.or_eq_true, decide_eq_true_eq,
            List.foldr_cons, le_max_iff] at ih ⊢
          rw [ih (by simp)]

lemma flat_iff {P : Prop} [Decidable P] {s : Nat} (hs : s ≠ 0) :
    (some (if P then s else 0) = some s ↔ P) ∧
    (¬ P → some (if P then s else 0) = some 0) := by
  by_cases hp : P
  · rw [if_pos hp]
    exact ⟨⟨fun _ => hp, fun _ => rfl⟩, fun hn => absurd hp hn⟩
  · rw [if_neg hp]
    refine ⟨⟨fun he => ?_, fun hpp => absurd hpp hp⟩, fun _ => rfl⟩
    exact absurd (Option.some_inj.mp he).symm hs

/-! ## The claims -/

/-- C1 (code bug): the claim — and the rule's own description string, "If 4+
values in a row, score 30" — require the small straight to fire on every hand
whose distinct faces contain a run of 4 consecutive values, in particular on
[1,2,3,4,6]. The reference run check confirms a 4-run in [1,2,3,4,6] and in
[1,3,4,5,6], yet the code scores both hands 0: its size-5 branch demands that
1 or 6 be entirely absent, which wrongly rejects 5-distinct hands with an
interior gap. -/
theorem smallStraight_run_divergence :
    specHasRun4 [1, 2, 3, 4, 6] = true ∧ smallStraight [1, 2, 3, 4, 6] = some 0 ∧
    ValidHand [1, 2, 3, 4, 6] ∧
    specHasRun4 [1, 3, 4, 5, 6] = true ∧ smallStraight [1, 3, 4, 5, 6] = some 0 := by
  decide

/-- C2: on every valid hand, `smallStraight` returns 30 exactly when the set
of distinct faces has size 4 and excludes a whole pair among {1,2}, {1,6},
{5,6}, or has size 5 and excludes 1 or excludes 6; otherwise it returns 0. -/
theorem smallStraight_disjunction_spec (dice : List Nat) (h : ValidHand dice) :
    (smallStraight dice = some 30 ↔ smallStraightCond dice) ∧
    (¬ smallStraightCond dice → smallStraight dice = some 0) := by
  have hc : smallStraightCond dice ↔
      ((dice.dedup.length = 4 ∧
          ((1 ∉ dice ∧ 2 ∉ dice) ∨ (1 ∉ dice ∧ 6 ∉ dice) ∨ (5 ∉ dice ∧ 6 ∉ dice))) ∨
        (dice.dedup.length = 5 ∧ (1 ∉ dice ∨ 6 ∉ dice))) := by
    simp [smallStraightCond, List.card_toFinset, List.mem_toFinset]
  unfold smallStraight SmallStraight.evalRoll
  have h30 : (30 : Nat) ≠ 0 := by omega
  exact ⟨Iff.trans (flat_iff h30).1 hc.symm,
    fun hn => (flat_iff h30).2 fun hq => hn (hc.mpr hq)⟩

/-- Witness for C2 at the hands [3,4,5,6,6] (accepted) and [1,2,4,5,6]
(rejected). -/
theorem smallStraight_disjunction_spec_witness :
    smallStraight [3, 4, 5, 6, 6] = some 30 ∧ smallStraight [1, 2, 4, 5, 6] = some 0 :=
  ⟨((smallStraight_disjunction_spec [3, 4, 5, 6, 6] (by decide)).1).mpr (by decide),
    (smallStraight_disjunction_spec [1, 2, 4, 5, 6] (by decide)).2 (by decide)⟩

/-- C3 counterexample: evaluating the chance rule on the empty hand returns
the score 0; no validation error is raised. -/
theorem chance_empty_returns_score : chance [] = some 0 := by decide

/-- C3 amended: no rule variant validates its input: every one of the twelve
rule instances evaluates the empty hand to the score 0 without raising an
error, and an out-of-range hand is likewise scored without error. -/
theorem no_input_validation :
    ones [] = some 0 ∧ twos [] = some 0 ∧ threes [] = some 0 ∧ fours [] = some 0 ∧
    fives [] = some 0 ∧ sixes [] = some 0 ∧ threeOfKind [] = some 0 ∧
    fourOfKind [] = some 0 ∧ fullHouse [] = some 0 ∧ smallStraight [] = some 0 ∧
    largeStraight [] = some 0 ∧ yahtzee [] = some 0 ∧ chance [] = some 0 ∧
    yahtzee [7, 7, 7, 7, 7] = some 50 := by
  decide

/-- C4 counterexample: the valid hand [6,6,6,6,6] contains a four-of-a-kind,
so `fourOfKind` returns the full hand sum 30, which exceeds the claimed upper
bound 6*4 = 24. -/
theorem fourOfKind_exceeds_claimed_bound :
    ValidHand [6, 6, 6, 6, 6] ∧ fourOfKind [6, 6, 6, 6, 6] = some 30 ∧ ¬(30 ≤ 24) := by
  decide

/-- C4 amended: on every valid hand each flat rule scores 0 or its flat
`score`, `sixes` is bounded by 30, and `fourOfKind` is bounded by 30 (the
maximal hand sum; 24 is exceeded by [6,6,6,6,6]). -/
theorem score_bounds (dice : List Nat) (h : ValidHand dice) :
    (fullHouse dice = some 0 ∨ fullHouse dice = some 25) ∧
    (smallStraight dice = some 0 ∨ smallStraight dice = some 30) ∧
    (largeStraight dice = some 0 ∨ largeStraight dice = some 40) ∧
    (yahtzee dice = some 0 ∨ yahtzee dice = some 50) ∧
    (∃ n, sixes dice = some n ∧ n ≤ 30) ∧
    (∃ n, fourOfKind dice = some n ∧ n ≤ 30) := by
  refine ⟨flat_cases 25, flat_cases 30, flat_cases 40, flat_cases 50, ?_, ?_⟩
  · refine ⟨6 * Rule.count dice 6, rfl, ?_⟩
    have hcl := count_le_length dice 6
    rw [h.1] at hcl
    omega
  · unfold fourOfKind SumDistro.evalRoll
    by_cases hb : ((Rule.freq dice).any fun c => decide (4 ≤ c)) = true
    · rw [if_pos hb, sum_eq_some (valid_ne_nil h)]
      refine ⟨dice.sum, rfl, ?_⟩
      have hs := sum_le_mul dice 6 fun x hx => (h.2 x hx).2
      rw [h.1] at hs
      omega
    · rw [if_neg hb]
      exact ⟨0, rfl, by omega⟩

/-- Witness for C4 (amended) at the hand [6,6,6,6,6]. -/
theorem score_bounds_witness :
    (fullHouse [6, 6, 6, 6, 6] = some 0 ∨ fullHouse [6, 6, 6, 6, 6] = some 25) ∧
    (smallStraight [6, 6, 6, 6, 6] = some 0 ∨ smallStraight [6, 6, 6, 6, 6] = some 30) ∧
    (largeStraight [6, 6, 6, 6, 6] = some 0 ∨ largeStraight [6, 6, 6, 6, 6] = some 40) ∧
    (yahtzee [6, 6, 6, 6, 6] = some 0 ∨ yahtzee [6, 6, 6, 6, 6] = some 50) ∧
    (∃ n, sixes [6, 6, 6, 6, 6] = some n ∧ n ≤ 30) ∧
    (∃ n, fourOfKind [6, 6, 6, 6, 6] = some n ∧ n ≤ 30) :=
  score_bounds [6, 6, 6, 6, 6] (by decide)

/-- C5: on every valid hand, `SumDistro.evalRoll c` returns the hand sum when
the maximum frequency reaches `c` (equivalently, some face value occurs at
least `c` times) and 0 otherwise; with `c = 0` (the chance rule) it returns
the hand sum unconditionally. -/
theorem sumDistro_spec (c : Nat) (dice : List Nat) (h : ValidHand dice) :
    SumDistro.evalRoll c dice = some (if c ≤ maxFreq dice then dice.sum else 0) ∧
    (c ≤ maxFreq dice ↔ ∃ v ∈ dice, c ≤ Rule.count dice v) ∧
    chance dice = some dice.sum := by
  have hne := valid_ne_nil h
  have hfne : Rule.freq dice ≠ [] := freq_ne_nil hne
  have hany : (((Rule.freq dice).any fun k => decide (c ≤ k)) = true) ↔
      c ≤ maxFreq dice :=
    any_le_iff_le_foldr_max c (Rule.freq dice) hfne
  refine ⟨?_, ?_, ?_⟩
  · unfold SumDistro.evalRoll
    by_cases hb : ((Rule.freq dice).any fun k => decide (c ≤ k)) = true
    · rw [if_pos hb, sum_eq_some hne, if_pos (hany.mp hb)]
    · rw [if_neg hb, if_neg fun hc => hb (hany.mpr hc)]
  · constructor
    · intro hm
      obtain ⟨v, hv, hc⟩ := (freq_any_iff _ _).mp (hany.mpr hm)
      exact ⟨v, hv, of_decide_eq_true hc⟩
    · rintro ⟨v, hv, hc⟩
      exact hany.mp ((freq_any_iff _ _).mpr ⟨v, hv, decide_eq_true hc⟩)
  · have hb : ((Rule.freq dice).any fun k => decide (0 ≤ k)) = true := by
      obtain ⟨f, fs, hffs⟩ := List.exists_cons_of_ne_nil hfne
      rw [hffs]
      simp
    unfold chance SumDistro.evalRoll
    rw [if_pos hb, sum_eq_some hne]

/-- Witness for C5: a three-of-a-kind hand sums, and chance sums
unconditionally. -/
theorem sumDistro_spec_witness :
    threeOfKind [3, 3, 3, 4, 5] = some 18 ∧ chance [1, 1, 1, 1, 1] = some 5 := by
  constructor
  · show SumDistro.evalRoll 3 [3, 3, 3, 4, 5] = some 18
    rw [(sumDistro_spec 3 [3, 3, 3, 4, 5] (by decide)).1]
    decide
  · exact (sumDistro_spec 0 [1, 1, 1, 1, 1] (by decide)).2.2

/-- C6: `fullHouse` returns 25 exactly when the frequency profile contains an
entry equal to 3 and an entry equal to 2, and 0 otherwise; in particular
[2,2,3,3,3] scores 25 and [2,2,2,2,3] scores 0. -/
theorem fullHouse_freq_spec :
    (∀ dice : List Nat,
      (fullHouse dice = some 25 ↔ 3 ∈ Rule.freq dice ∧ 2 ∈ Rule.freq dice) ∧
      (¬(3 ∈ Rule.freq dice ∧ 2 ∈ Rule.freq dice) → fullHouse dice = some 0)) ∧
    fullHouse [2, 2, 3, 3, 3] = some 25 ∧ fullHouse [2, 2, 2, 2, 3] = some 0 := by
  refine ⟨fun dice => ?_, by decide, by decide⟩
  have hc : ((((Rule.freq dice).any fun c => c == 3) &&
        ((Rule.freq dice).any fun c => c == 2)) = true) ↔
      (3 ∈ Rule.freq dice ∧ 2 ∈ Rule.freq dice) := by
    simp [Bool.and_eq_true, List.any_eq_true, beq_iff_eq]
  unfold fullHouse FullHouse.evalRoll
  have h25 : (25 : Nat) ≠ 0 := by omega
  exact ⟨Iff.trans (flat_iff h25).1 hc,
    fun hn => (flat_iff h25).2 fun hq => hn (hc.mp hq)⟩

/-- Witness for C6 at the straight hand [1,2,3,4,5], whose profile has no 3
and no 2. -/
theorem fullHouse_freq_spec_witness : fullHouse [1, 2, 3, 4, 5] = some 0 :=
  (fullHouse_freq_spec.1 [1, 2, 3, 4, 5]).2 (by decide)

/-- C7: on every valid hand, `yahtzee` returns 50 exactly when all five dice
are equal and 0 otherwise; moreover, when all dice are equal the `freq`
helper returns exactly the one-entry collection [5]. -/
theorem yahtzee_all_equal_spec (dice : List Nat) (h : ValidHand dice) :
    (yahtzee dice = some 50 ↔ ∃ v, ∀ d ∈ dice, d = v) ∧
    ((¬ ∃ v, ∀ d ∈ dice, d = v) → yahtzee dice = some 0) ∧
    ((∃ v, ∀ d ∈ dice, d = v) → Rule.freq dice = [5]) := by
  have hne := valid_ne_nil h
  have hbr := allEq_iff_headD hne
  have hch := yahtzee_char h
  refine ⟨Iff.trans ?_ hbr.symm, fun hn => ?_, fun he => ?_⟩
  · exact hch.1
  · exact hch.2.1 fun hc => hn (hbr.mpr hc)
  · exact hch.2.2 (hbr.mp he)

/-- Witness for C7 at [4,4,4,4,4] and [4,4,4,4,5]. -/
theorem yahtzee_all_equal_spec_witness :
    yahtzee [4, 4, 4, 4, 4] = some 50 ∧ yahtzee [4, 4, 4, 4, 5] = some 0 ∧
    Rule.freq [4, 4, 4, 4, 4] = [5] := by
  refine ⟨(yahtzee_all_equal_spec [4, 4, 4, 4, 4] (by decide)).1.mpr ⟨4, by decide⟩,
    (yahtzee_all_equal_spec [4, 4, 4, 4, 5] (by decide)).2.1 ?_,
    (yahtzee_all_equal_spec [4, 4, 4, 4, 4] (by decide)).2.2 ⟨4, by decide⟩⟩
  rintro ⟨v, hv⟩
  have h4 := hv 4 (by decide)
  have h5 := hv 5 (by decide)
  omega

/-- C8: on every valid hand, `largeStraight` returns 40 exactly when the hand
has 5 distinct faces and misses 1 or misses 6 — equivalently, the faces are
exactly {1,2,3,4,5} or {2,3,4,5,6} — and 0 otherwise. -/
theorem largeStraight_spec (dice : List Nat) (h : ValidHand dice) :
    (largeStraight dice = some 40 ↔
      (dice.toFinset = ({1, 2, 3, 4, 5} : Finset Nat) ∨
        dice.toFinset = ({2, 3, 4, 5, 6} : Finset Nat))) ∧
    (¬(dice.toFinset = ({1, 2, 3, 4, 5} : Finset Nat) ∨
        dice.toFinset = ({2, 3, 4, 5, 6} : Finset Nat)) →
      largeStraight dice = some 0) := by
  have hcond : (dice.dedup.length = 5 ∧ (1 ∉ dice ∨ 6 ∉ dice)) ↔
      (dice.toFinset = ({1, 2, 3, 4, 5} : Finset Nat) ∨
        dice.toFinset = ({2, 3, 4, 5, 6} : Finset Nat)) := by
    constructor
    · rintro ⟨hlen, h16⟩
      have hcard : dice.toFinset.card = 5 := by
        rw [List.card_toFinset]
        exact hlen
      rcases h16 with h1 | h6
      · refine Or.inr (Finset.eq_of_subset_of_card_le ?_ ?_)
        · intro v hv
          have hvd := List.mem_toFinset.mp hv
          have hb := h.2 v hvd
          have hv1 : v ≠ 1 := fun he => h1 (he ▸ hvd)
          simp only [Finset.mem_insert, Finset.mem_singleton]
          omega
        · rw [hcard]
          decide
      · refine Or.inl (Finset.eq_of_subset_of_card_le ?_ ?_)
        · intro v hv
          have hvd := List.mem_toFinset.mp hv
          have hb := h.2 v hvd
          have hv6 : v ≠ 6 := fun he => h6 (he ▸ hvd)
          simp only [Finset.mem_insert, Finset.mem_singleton]
          omega
        · rw [hcard]
          decide
    · rintro (he | he)
      · refine ⟨?_, Or.inr fun h6 => ?_⟩
        · rw [← List.card_toFinset, he]
          decide
        · have hm : (6 : Nat) ∈ dice.toFinset := List.mem_toFinset.mpr h6
          rw [he] at hm
          exact absurd hm (by decide)
      · refine ⟨?_, Or.inl fun h1 => ?_⟩
        · rw [← List.card_toFinset, he]
          decide
        · have hm : (1 : Nat) ∈ dice.toFinset := List.mem_toFinset.mpr h1
          rw [he] at hm
          exact absurd hm (by decide)
  unfold largeStraight LargeStraight.evalRoll
  have h40 : (40 : Nat) ≠ 0 := by omega
  exact ⟨Iff.trans (flat_iff h40).1 hcond,
    fun hn => (flat_iff h40).2 fun hq => hn (hcond.mp hq)⟩

/-- Witness for C8 at [2,3,4,5,6] (a large straight) and [1,2,3,4,6] (not). -/
theorem largeStraight_spec_witness :
    largeStraight [2, 3, 4, 5, 6] = some 40 ∧ largeStraight [1, 2, 3, 4, 6] = some 0 :=
  ⟨(largeStraight_spec [2, 3, 4, 5, 6] (by decide)).1.mpr (Or.inr (by decide)),
    (largeStraight_spec [1, 2, 3, 4, 6] (by decide)).2 (by decide)⟩

/-- C9: every rule instance is a symmetric function of the multiset of dice:
on a valid hand, any permutation of the hand gets the same score from every
one of the twelve exported rules. -/
theorem rules_perm_invariant (l1 l2 : List Nat) (h : ValidHand l1)
    (hp : l1.Perm l2) :
    ones l1 = ones l2 ∧ twos l1 = twos l2 ∧ threes l1 = threes l2 ∧
    fours l1 = fours l2 ∧ fives l1 = fives l2 ∧ sixes l1 = sixes l2 ∧
    threeOfKind l1 = threeOfKind l2 ∧ fourOfKind l1 = fourOfKind l2 ∧
    fullHouse l1 = fullHouse l2 ∧ smallStraight l1 = smallStraight l2 ∧
    largeStraight l1 = largeStraight l2 ∧ yahtzee l1 = yahtzee l2 ∧
    chance l1 = chance l2 := by
  have h2 : ValidHand l2 := ⟨hp.length_eq ▸ h.1, fun d hd => h.2 d (hp.mem_iff.mpr hd)⟩
  have htotal : ∀ v : Nat, TotalOneNumber.evalRoll v l1 = TotalOneNumber.evalRoll v l2 := by
    intro v
    unfold TotalOneNumber.evalRoll
    rw [count_perm hp]
  have hsmall : SmallStraight.evalRoll 30 l1 = SmallStraight.evalRoll 30 l2 := by
    unfold SmallStraight.evalRoll
    simp only [hp.mem_iff, hp.dedup.length_eq]
  have hlarge : LargeStraight.evalRoll 40 l1 = LargeStraight.evalRoll 40 l2 := by
    unfold LargeStraight.evalRoll
    simp only [hp.mem_iff, hp.dedup.length_eq]
  have hyah : Yahtzee.evalRoll 50 l1 = Yahtzee.evalRoll 50 l2 := by
    have hc1 := yahtzee_char h
    have hc2 := yahtzee_char h2
    by_cases hex : ∃ v, ∀ d ∈ l1, d = v
    · have he1 := (allEq_iff_headD (valid_ne_nil h)).mp hex
      have hex2 : ∃ v, ∀ d ∈ l2, d = v := by
        obtain ⟨v, hv⟩ := hex
        exact ⟨v, fun d hd => hv d (hp.mem_iff.mpr hd)⟩
      have he2 := (allEq_iff_headD (valid_ne_nil h2)).mp hex2
      rw [hc1.1.mpr he1, hc2.1.mpr he2]
    · have hn1 : ¬ ∀ d ∈ l1, d = l1.headD 1 :=
        fun hc => hex ((allEq_iff_headD (valid_ne_nil h)).mpr hc)
      have hex2 : ¬ ∃ v, ∀ d ∈ l2, d = v := by
        rintro ⟨v, hv⟩
        exact hex ⟨v, fun d hd => hv d (hp.mem_iff.mp hd)⟩
      have hn2 : ¬ ∀ d ∈ l2, d = l2.headD 1 :=
        fun hc => hex2 ((allEq_iff_headD (valid_ne_nil h2)).mpr hc)
      rw [hc1.2.1 hn1, hc2.2.1 hn2]
  exact ⟨htotal 1, htotal 2, htotal 3, htotal 4, htotal 5, htotal 6,
    sumDistro_perm 3 hp, sumDistro_perm 4 hp, fullHouse_perm 25 hp, hsmall,
    hlarge, hyah, sumDistro_perm 0 hp⟩

/-- Witness for C9 at the hand [1,2,3,4,5] and its reversal. -/
theorem rules_perm_invariant_witness :
    ones [1, 2, 3, 4, 5] = ones [5, 4, 3, 2, 1] ∧
    twos [1, 2, 3, 4, 5] = twos [5, 4, 3, 2, 1] ∧
    threes [1, 2, 3, 4, 5] = threes [5, 4, 3, 2, 1] ∧
    fours [1, 2, 3, 4, 5] = fours [5, 4, 3, 2, 1] ∧
    fives [1, 2, 3, 4, 5] = fives [5, 4, 3, 2, 1] ∧
    sixes [1, 2, 3, 4, 5] = sixes [5, 4, 3, 2, 1] ∧
    threeOfKind [1, 2, 3, 4, 5] = threeOfKind [5, 4, 3, 2, 1] ∧
    fourOfKind [1, 2, 3, 4, 5] = fourOfKind [5, 4, 3, 2, 1] ∧
    fullHouse [1, 2, 3, 4, 5] = fullHouse [5, 4, 3, 2, 1] ∧
    smallStraight [1, 2, 3, 4, 5] = smallStraight [5, 4, 3, 2, 1] ∧
    largeStraight [1, 2, 3, 4, 5] = largeStraight [5, 4, 3, 2, 1] ∧
    yahtzee [1, 2, 3, 4, 5] = yahtzee [5, 4, 3, 2, 1] ∧
    chance [1, 2, 3, 4, 5] = chance [5, 4, 3, 2, 1] :=
  rules_perm_invariant [1, 2, 3, 4, 5] [5, 4, 3, 2, 1] (by decide) (by decide)

/-- C10: the chance rule on the empty dice list silently returns the score 0:
the frequency profile of the empty list is empty, so the threshold test
fails and `Rule.sum` — which does fail on the empty list — is never
evaluated. -/
theorem chance_empty_silent :
    chance [] = some 0 ∧ Rule.freq [] = [] ∧ Rule.sum [] = none := by
  decide
